import Mathlib

/-!
Shallow embedding of the L-system core of `src/rust_svg/src/main.rs`:
rule expansion (`rules_apply_basic`), action filtering (`rules_minimize`),
the turtle interpreter (`lsys_dacts_from_rules`) with its bracket stack,
bounding box and degeneracy correction, and the fit transform of
`lsys_draw_basic`.  Floating point values are modelled as real numbers;
the two fatal `panic!` paths of the interpreter are modelled with `Except`.
-/

namespace RustSvg

/-- The action alphabet `ACTIONS = "Ff+-[]|"` (main.rs line 304). -/
def ACTIONS : List Char := ['F', 'f', '+', '-', '[', ']', '|']

/-- The six action characters actually handled by the interpreter's
if-chain in `lsys_dacts_from_rules` (main.rs lines 408-434).  Note the
absence of `f`, which falls into the `panic!` branch. -/
def IMPLEMENTED : List Char := ['F', '+', '-', '[', ']', '|']

/-- Model of `Rules = HashMap<char,String>` (main.rs line 306) as a lookup
function. -/
abbrev Rules := Char → Option (List Char)

/-- The inner while loop of `rules_apply_basic` (main.rs lines 334-340):
remove characters from the front of the old string; a rule key is replaced
by its full replacement string, any other character is passed through. -/
def rules_subst (rules : Rules) : List Char → List Char
  | [] => []
  | c :: rest =>
    match rules c with
    | some s => s ++ rules_subst rules rest
    | none => c :: rules_subst rules rest

/-- `rules_apply_basic` (main.rs lines 329-343): the substitution pass is
iterated `order` times starting from `start`. -/
def rules_apply_basic (rules : Rules) (start : List Char) : Nat → List Char
  | 0 => start
  | n + 1 => rules_apply_basic rules (rules_subst rules start) n

/-- `rules_minimize` (main.rs lines 349-358): keep exactly the characters
of the action alphabet. -/
def rules_minimize (s : List Char) : List Char :=
  s.filter (fun c => ACTIONS.contains c)

/-- The `LSys` record (main.rs lines 310-318); `refs` is dropped since no
core function reads it. -/
structure LSys where
  title : List Char
  start : List Char
  angle : ℝ
  order : List Int
  rules : Rules
  post_rules : Rules

/-- `lsys_apply_rules` (main.rs lines 368-374): main rules to `order`,
then one pass of the post rules, then minimization. -/
def lsys_apply_rules (l : LSys) (order : Nat) : List Char :=
  rules_minimize (rules_apply_basic l.post_rules (rules_apply_basic l.rules l.start order) 1)

/-- Drawing actions `DAct` (main.rs lines 383-386), relative moves. -/
inductive DAct where
  | RmoveTo : ℝ → ℝ → DAct
  | RlineTo : ℝ → ℝ → DAct

/-- The two fatal failure modes of `lsys_dacts_from_rules`:
`stack.pop().unwrap()` on an empty stack (main.rs line 425) and the
`panic!("Unimplemented action")` branch (main.rs line 433). -/
inductive LsysError where
  | emptyStack : LsysError
  | unimplemented : Char → LsysError
deriving DecidableEq

/-- Bounding box `(x0, y0, x1, y1)` (main.rs line 221). -/
abbrev BBox : Type := ℝ × ℝ × ℝ × ℝ

/-- The mutable state of the interpreter loop in `lsys_dacts_from_rules`
(main.rs lines 388-402): stack of `(d, x, y)` snapshots, emitted drawing
actions, direction `d`, current position `(x, y)` and running bounding
box `(x0, y0, x1, y1)`. -/
structure TState where
  stack : List (ℝ × ℝ × ℝ)
  dacts : List DAct
  d : ℝ
  x : ℝ
  y : ℝ
  x0 : ℝ
  y0 : ℝ
  x1 : ℝ
  y1 : ℝ

/-- Rotation sign constant (main.rs line 787): `-1.0` for svg/html. -/
noncomputable def ROTATION : ℝ := -1

/-- The bounding-box maintenance performed after every action
(main.rs lines 436-437). -/
noncomputable def bbox_update (st : TState) : TState :=
  { st with x0 := min st.x0 st.x, y0 := min st.y0 st.y,
            x1 := max st.x1 st.x, y1 := max st.y1 st.y }

/-- One iteration of the action loop of `lsys_dacts_from_rules`
(main.rs lines 408-438), including the trailing bounding-box update. -/
noncomputable def lsys_step (angle : ℝ) (st : TState) (c : Char) : Except LsysError TState :=
  if c = 'F' then
    .ok (bbox_update
      { st with
          x := st.x + Real.cos st.d, y := st.y + Real.sin st.d,
          dacts := st.dacts ++ [DAct.RlineTo (Real.cos st.d) (Real.sin st.d)] })
  else if c = '+' then
    .ok (bbox_update { st with d := st.d + angle * ROTATION })
  else if c = '-' then
    .ok (bbox_update { st with d := st.d - angle * ROTATION })
  else if c = '[' then
    .ok (bbox_update { st with stack := (st.d, st.x, st.y) :: st.stack })
  else if c = ']' then
    match st.stack with
    | [] => .error LsysError.emptyStack
    | (dt, xt, yt) :: rest =>
      .ok (bbox_update
        { st with
            d := dt, x := xt, y := yt, stack := rest,
            dacts := st.dacts ++ [DAct.RmoveTo (xt - st.x) (yt - st.y)] })
  else if c = '|' then
    .ok (bbox_update { st with d := st.d + Real.pi })
  else .error (LsysError.unimplemented c)

/-- The action loop, aborting at the first fatal error. -/
noncomputable def lsys_run (angle : ℝ) : TState → List Char → Except LsysError TState
  | st, [] => .ok st
  | st, c :: rest =>
    match lsys_step angle st c with
    | .error e => .error e
    | .ok st' => lsys_run angle st' rest

/-- The interpreter's initial state (main.rs lines 390-405): empty stack,
direction `0`, position at the origin, bounding box seeded at the origin,
and the starting `RmoveTo(0,0)` already emitted. -/
noncomputable def init_state : TState :=
  { stack := [], dacts := [DAct.RmoveTo 0 0], d := 0, x := 0, y := 0,
    x0 := 0, y0 := 0, x1 := 0, y1 := 0 }

/-- The degeneracy correction of the bounding box (main.rs lines 442-443):
an axis whose absolute extent is below `0.1` is replaced by the fixed
interval from `-0.1` to `0.1`. -/
noncomputable def bbox_adjust (bb : BBox) : BBox :=
  ((if |bb.2.2.1 - bb.1| < 0.1 then (-0.1 : ℝ) else bb.1),
   (if |bb.2.2.2 - bb.2.1| < 0.1 then (-0.1 : ℝ) else bb.2.1),
   (if |bb.2.2.1 - bb.1| < 0.1 then (0.1 : ℝ) else bb.2.2.1),
   (if |bb.2.2.2 - bb.2.1| < 0.1 then (0.1 : ℝ) else bb.2.2.2))

/-- `lsys_dacts_from_rules` (main.rs lines 388-446): run the action loop
from the initial state with the angle converted to radians, then apply the
degeneracy correction to the accumulated bounding box. -/
noncomputable def lsys_dacts_from_rules (l : LSys) (rules : List Char) :
    Except LsysError (List DAct × BBox) :=
  match lsys_run (l.angle * Real.pi / 180) init_state rules with
  | .error e => .error e
  | .ok st => .ok (st.dacts, bbox_adjust (st.x0, st.y0, st.x1, st.y1))

/-- `BOX_USAGE_FRACTION` (main.rs line 778). -/
noncomputable def BOX_USAGE_FRACTION : ℝ := 0.9

/-- x-component of a drawing action's relative delta. -/
def dact_dx : DAct → ℝ
  | .RmoveTo dx _ => dx
  | .RlineTo dx _ => dx

/-- y-component of a drawing action's relative delta. -/
def dact_dy : DAct → ℝ
  | .RmoveTo _ dy => dy
  | .RlineTo _ dy => dy

/-- Sum of the x-deltas of a list of drawing actions. -/
def sumDx (ds : List DAct) : ℝ := (ds.map dact_dx).sum

/-- Sum of the y-deltas of a list of drawing actions. -/
def sumDy (ds : List DAct) : ℝ := (ds.map dact_dy).sum

/-- The absolute coordinates written into the path by the command loop of
`lsys_draw_basic` (main.rs lines 504-525): a running position starting at
`(x, y)`, each relative delta scaled by `s`; one coordinate pair is
emitted per drawing action (for both move and line commands). -/
noncomputable def dacts_to_coords (s x y : ℝ) : List DAct → List (ℝ × ℝ)
  | [] => []
  | d :: rest =>
    (x + s * dact_dx d, y + s * dact_dy d) ::
      dacts_to_coords s (x + s * dact_dx d) (y + s * dact_dy d) rest

/-- The scale, offset and coordinate computation of `lsys_draw_basic`
(main.rs lines 466-525) for an already elaborated action string, with the
SVG text serialization left out: the result is the list of absolute
coordinates emitted into the path attribute. -/
noncomputable def lsys_draw_coords_of_rules (l : LSys) (rules : List Char) (pbb : BBox) :
    Except LsysError (List (ℝ × ℝ)) :=
  match lsys_dacts_from_rules l rules with
  | .error e => .error e
  | .ok (dacts, abb) =>
    let px := (pbb.2.2.1 - pbb.1) * BOX_USAGE_FRACTION
    let py := (pbb.2.2.2 - pbb.2.1) * BOX_USAGE_FRACTION
    let ax := abb.2.2.1 - abb.1
    let ay := abb.2.2.2 - abb.2.1
    let sx := px / ax
    let sy := py / ay
    let pixel_per_step := min sx sy
    let x := (pbb.1 + pbb.2.2.1) / 2 - (abb.1 + abb.2.2.1) / 2 * pixel_per_step
    let y := (pbb.2.1 + pbb.2.2.2) / 2 - (abb.2.1 + abb.2.2.2) / 2 * pixel_per_step
    .ok (dacts_to_coords pixel_per_step x y dacts)

/-- `lsys_draw_basic` (main.rs lines 466-470): elaborate the grammar to
the requested order and hand the resulting action string to the
interpreter and fit transform. -/
noncomputable def lsys_draw_coords (l : LSys) (order : Nat) (pbb : BBox) :
    Except LsysError (List (ℝ × ℝ)) :=
  lsys_draw_coords_of_rules l (lsys_apply_rules l order) pbb

/-- Empty rule set, for concrete instances. -/
def noRules : Rules := fun _ => none

/-- The rule set `{A → AB, B → A}` of `test_rules_apply_basic`
(test_main.rs lines 88-100). -/
def fibRules : Rules := fun c =>
  if c = 'A' then some ['A', 'B'] else if c = 'B' then some ['A'] else none

/-- A trivial concrete grammar (angle `0`), used to instantiate theorems
at concrete inputs. -/
noncomputable def exA : LSys :=
  { title := [], start := [], angle := 0, order := [],
    rules := noRules, post_rules := noRules }

/-- A concrete grammar with a `1`-degree angle: interpreting `"+F"` with
it produces a bounding box whose y-extent is small but whose y-center is
not at the origin. -/
noncomputable def exDeg1 : LSys :=
  { title := [], start := [], angle := 1, order := [],
    rules := noRules, post_rules := noRules }

/-- Occurrence count of a character in a string, used to state bracket
balance. -/
def cnt (c : Char) : List Char → Nat
  | [] => 0
  | d :: rest => (if c = d then 1 else 0) + cnt c rest

/-- Invariant tying the emitted drawing actions to the interpreter state:
the deltas sum to the current position, and every partial sum (that is,
every absolute coordinate of the path in abstract space) lies inside the
running bounding box. -/
def CoordsInv (st : TState) : Prop :=
  sumDx st.dacts = st.x ∧ sumDy st.dacts = st.y ∧
  ∀ q ∈ dacts_to_coords 1 0 0 st.dacts,
    st.x0 ≤ q.1 ∧ q.1 ≤ st.x1 ∧ st.y0 ≤ q.2 ∧ q.2 ≤ st.y1

/-! ### Characterization of single interpreter steps -/

theorem lsys_step_F (a : ℝ) (st : TState) :
    lsys_step a st 'F' = .ok (bbox_update
      { st with
          x := st.x + Real.cos st.d, y := st.y + Real.sin st.d,
          dacts := st.dacts ++ [DAct.RlineTo (Real.cos st.d) (Real.sin st.d)] }) := by
  simp [lsys_step]

theorem lsys_step_plus (a : ℝ) (st : TState) :
    lsys_step a st '+' = .ok (bbox_update { st with d := st.d + a * ROTATION }) := by
  simp [lsys_step]

theorem lsys_step_minus (a : ℝ) (st : TState) :
    lsys_step a st '-' = .ok (bbox_update { st with d := st.d - a * ROTATION }) := by
  simp [lsys_step]

theorem lsys_step_push (a : ℝ) (st : TState) :
    lsys_step a st '[' =
      .ok (bbox_update { st with stack := (st.d, st.x, st.y) :: st.stack }) := by
  simp [lsys_step]

theorem lsys_step_pop_nil (a : ℝ) (st : TState) (hs : st.stack = []) :
    lsys_step a st ']' = .error LsysError.emptyStack := by
  simp [lsys_step, hs]

theorem lsys_step_pop_cons (a : ℝ) (st : TState) (dt xt yt : ℝ)
    (rest : List (ℝ × ℝ × ℝ)) (hs : st.stack = (dt, xt, yt) :: rest) :
    lsys_step a st ']' = .ok (bbox_update
      { st with
          d := dt, x := xt, y := yt, stack := rest,
          dacts := st.dacts ++ [DAct.RmoveTo (xt - st.x) (yt - st.y)] }) := by
  simp [lsys_step, hs]

theorem lsys_step_pipe (a : ℝ) (st : TState) :
    lsys_step a st '|' = .ok (bbox_update { st with d := st.d + Real.pi }) := by
  simp [lsys_step]

theorem lsys_step_unknown (a : ℝ) (st : TState) (c : Char)
    (h1 : c ≠ 'F') (h2 : c ≠ '+') (h3 : c ≠ '-') (h4 : c ≠ '[')
    (h5 : c ≠ ']') (h6 : c ≠ '|') :
    lsys_step a st c = .error (LsysError.unimplemented c) := by
  simp [lsys_step, h1, h2, h3, h4, h5, h6]

theorem lsys_step_ok_cases {a : ℝ} {st : TState} {c : Char} {st' : TState}
    (h : lsys_step a st c = .ok st') :
    (c = 'F' ∧ st' = bbox_update
      { st with
          x := st.x + Real.cos st.d, y := st.y + Real.sin st.d,
          dacts := st.dacts ++ [DAct.RlineTo (Real.cos st.d) (Real.sin st.d)] }) ∨
    (c = '+' ∧ st' = bbox_update { st with d := st.d + a * ROTATION }) ∨
    (c = '-' ∧ st' = bbox_update { st with d := st.d - a * ROTATION }) ∨
    (c = '[' ∧ st' = bbox_update { st with stack := (st.d, st.x, st.y) :: st.stack }) ∨
    (c = ']' ∧ ∃ dt xt yt rest, st.stack = (dt, xt, yt) :: rest ∧ st' = bbox_update
      { st with
          d := dt, x := xt, y := yt, stack := rest,
          dacts := st.dacts ++ [DAct.RmoveTo (xt - st.x) (yt - st.y)] }) ∨
    (c = '|' ∧ st' = bbox_update { st with d := st.d + Real.pi }) := by
  by_cases hF : c = 'F'
  · subst hF; rw [lsys_step_F] at h; injection h with h
    exact Or.inl ⟨rfl, h.symm⟩
  by_cases hP : c = '+'
  · subst hP; rw [lsys_step_plus] at h; injection h with h
    exact Or.inr (Or.inl ⟨rfl, h.symm⟩)
  by_cases hM : c = '-'
  · subst hM; rw [lsys_step_minus] at h; injection h with h
    exact Or.inr (Or.inr (Or.inl ⟨rfl, h.symm⟩))
  by_cases hB : c = '['
  · subst hB; rw [lsys_step_push] at h; injection h with h
    exact Or.inr (Or.inr (Or.inr (Or.inl ⟨rfl, h.symm⟩)))
  by_cases hK : c = ']'
  · subst hK
    rcases hs : st.stack with _ | ⟨⟨dt, xt, yt⟩, rest⟩
    · rw [lsys_step_pop_nil a st hs] at h; cases h
    · rw [lsys_step_pop_cons a st dt xt yt rest hs] at h; injection h with h
      exact Or.inr (Or.inr (Or.inr (Or.inr (Or.inl
        ⟨rfl, dt, xt, yt, rest, rfl, h.symm⟩))))
  by_cases hV : c = '|'
  · subst hV; rw [lsys_step_pipe] at h; injection h with h
    exact Or.inr (Or.inr (Or.inr (Or.inr (Or.inr ⟨rfl, h.symm⟩))))
  · rw [lsys_step_unknown a st c hF hP hM hB hK hV] at h; cases h

theorem lsys_step_emptyStack_cases {a : ℝ} {st : TState} {c : Char}
    (h : lsys_step a st c = .error LsysError.emptyStack) :
    c = ']' ∧ st.stack = [] := by
  by_cases hF : c = 'F'
  · subst hF; rw [lsys_step_F] at h; cases h
  by_cases hP : c = '+'
  · subst hP; rw [lsys_step_plus] at h; cases h
  by_cases hM : c = '-'
  · subst hM; rw [lsys_step_minus] at h; cases h
  by_cases hB : c = '['
  · subst hB; rw [lsys_step_push] at h; cases h
  by_cases hK : c = ']'
  · subst hK
    rcases hs : st.stack with _ | ⟨⟨dt, xt, yt⟩, rest⟩
    · exact ⟨rfl, rfl⟩
    · rw [lsys_step_pop_cons a st dt xt yt rest hs] at h; cases h
  by_cases hV : c = '|'
  · subst hV; rw [lsys_step_pipe] at h; cases h
  · rw [lsys_step_unknown a st c hF hP hM hB hK hV] at h
    injection h with h; cases h

theorem lsys_step_ok_box_mono {a : ℝ} {st : TState} {c : Char} {st' : TState}
    (h : lsys_step a st c = .ok st') :
    st'.x0 ≤ st.x0 ∧ st'.y0 ≤ st.y0 ∧ st.x1 ≤ st'.x1 ∧ st.y1 ≤ st'.y1 := by
  rcases lsys_step_ok_cases h with ⟨_, rfl⟩ | ⟨_, rfl⟩ | ⟨_, rfl⟩ | ⟨_, rfl⟩ |
    ⟨_, dt, xt, yt, rest, hs, rfl⟩ | ⟨_, rfl⟩ <;>
    exact ⟨min_le_left _ _, min_le_left _ _, le_max_left _ _, le_max_left _ _⟩

theorem lsys_step_ok_pos_in_box {a : ℝ} {st : TState} {c : Char} {st' : TState}
    (h : lsys_step a st c = .ok st') :
    st'.x0 ≤ st'.x ∧ st'.x ≤ st'.x1 ∧ st'.y0 ≤ st'.y ∧ st'.y ≤ st'.y1 := by
  rcases lsys_step_ok_cases h with ⟨_, rfl⟩ | ⟨_, rfl⟩ | ⟨_, rfl⟩ | ⟨_, rfl⟩ |
    ⟨_, dt, xt, yt, rest, hs, rfl⟩ | ⟨_, rfl⟩ <;>
    exact ⟨min_le_right _ _, le_max_right _ _, min_le_right _ _, le_max_right _ _⟩

theorem lsys_step_ok_stack_len {a : ℝ} {st : TState} {c : Char} {st' : TState}
    (h : lsys_step a st c = .ok st') :
    st'.stack.length + (if ']' = c then 1 else 0) =
      st.stack.length + (if '[' = c then 1 else 0) := by
  rcases lsys_step_ok_cases h with ⟨rfl, rfl⟩ | ⟨rfl, rfl⟩ | ⟨rfl, rfl⟩ | ⟨rfl, rfl⟩ |
    ⟨rfl, dt, xt, yt, rest, hs, rfl⟩ | ⟨rfl, rfl⟩
  · simp [bbox_update]
  · simp [bbox_update]
  · simp [bbox_update]
  · simp [bbox_update]
  · simp [bbox_update, hs]
  · simp [bbox_update]

theorem lsys_step_ok_dacts {a : ℝ} {st : TState} {c : Char} {st' : TState}
    (h : lsys_step a st c = .ok st') :
    ∃ ds, st'.dacts = st.dacts ++ ds := by
  rcases lsys_step_ok_cases h with ⟨_, rfl⟩ | ⟨_, rfl⟩ | ⟨_, rfl⟩ | ⟨_, rfl⟩ |
    ⟨_, dt, xt, yt, rest, hs, rfl⟩ | ⟨_, rfl⟩
  · exact ⟨[DAct.RlineTo (Real.cos st.d) (Real.sin st.d)], rfl⟩
  · exact ⟨[], by simp [bbox_update]⟩
  · exact ⟨[], by simp [bbox_update]⟩
  · exact ⟨[], by simp [bbox_update]⟩
  · exact ⟨[DAct.RmoveTo (xt - st.x) (yt - st.y)], rfl⟩
  · exact ⟨[], by simp [bbox_update]⟩

/-! ### Lemmas about whole interpreter runs -/

theorem lsys_run_append (a : ℝ) (s t : List Char) : ∀ st : TState,
    lsys_run a st (s ++ t) =
      match lsys_run a st s with
      | .ok st' => lsys_run a st' t
      | .error e => .error e := by
  induction s with
  | nil => intro st; simp [lsys_run]
  | cons c rest ih =>
    intro st
    simp only [List.cons_append, lsys_run]
    cases h : lsys_step a st c with
    | error e => simp
    | ok st1 => simpa using ih st1

theorem lsys_run_ok_box_mono (a : ℝ) : ∀ (s : List Char) (st st' : TState),
    lsys_run a st s = .ok st' →
    st'.x0 ≤ st.x0 ∧ st'.y0 ≤ st.y0 ∧ st.x1 ≤ st'.x1 ∧ st.y1 ≤ st'.y1 := by
  intro s
  induction s with
  | nil =>
    intro st st' h
    simp only [lsys_run] at h
    injection h with h; subst h
    exact ⟨le_refl _, le_refl _, le_refl _, le_refl _⟩
  | cons c rest ih =>
    intro st st' h
    simp only [lsys_run] at h
    cases hstep : lsys_step a st c with
    | error e => rw [hstep] at h; cases h
    | ok st1 =>
      rw [hstep] at h
      simp only at h
      obtain ⟨m1, m2, m3, m4⟩ := lsys_step_ok_box_mono hstep
      obtain ⟨n1, n2, n3, n4⟩ := ih st1 st' h
      exact ⟨le_trans n1 m1, le_trans n2 m2, le_trans m3 n3, le_trans m4 n4⟩

theorem lsys_run_ok_pos_in_box (a : ℝ) : ∀ (s : List Char) (st st' : TState),
    lsys_run a st s = .ok st' →
    (st.x0 ≤ st.x ∧ st.x ≤ st.x1 ∧ st.y0 ≤ st.y ∧ st.y ≤ st.y1) →
    st'.x0 ≤ st'.x ∧ st'.x ≤ st'.x1 ∧ st'.y0 ≤ st'.y ∧ st'.y ≤ st'.y1 := by
  intro s
  induction s with
  | nil =>
    intro st st' h hp
    simp only [lsys_run] at h
    injection h with h; subst h
    exact hp
  | cons c rest ih =>
    intro st st' h hp
    simp only [lsys_run] at h
    cases hstep : lsys_step a st c with
    | error e => rw [hstep] at h; cases h
    | ok st1 =>
      rw [hstep] at h
      simp only at h
      exact ih st1 st' h (lsys_step_ok_pos_in_box hstep)

theorem lsys_run_ok_dacts (a : ℝ) : ∀ (s : List Char) (st st' : TState),
    lsys_run a st s = .ok st' → ∃ ds, st'.dacts = st.dacts ++ ds := by
  intro s
  induction s with
  | nil =>
    intro st st' h
    simp only [lsys_run] at h
    injection h with h; subst h
    exact ⟨[], by simp⟩
  | cons c rest ih =>
    intro st st' h
    simp only [lsys_run] at h
    cases hstep : lsys_step a st c with
    | error e => rw [hstep] at h; cases h
    | ok st1 =>
      rw [hstep] at h
      simp only at h
      obtain ⟨ds1, h1⟩ := lsys_step_ok_dacts hstep
      obtain ⟨ds2, h2⟩ := ih st1 st' h
      exact ⟨ds1 ++ ds2, by rw [h2, h1, List.append_assoc]⟩

theorem lsys_run_ok_stack_len (a : ℝ) : ∀ (s : List Char) (st st' : TState),
    lsys_run a st s = .ok st' →
    st'.stack.length + cnt ']' s = st.stack.length + cnt '[' s := by
  intro s
  induction s with
  | nil =>
    intro st st' h
    simp only [lsys_run] at h
    injection h with h; subst h
    simp [cnt]
  | cons c rest ih =>
    intro st st' h
    simp only [lsys_run] at h
    cases hstep : lsys_step a st c with
    | error e => rw [hstep] at h; cases h
    | ok st1 =>
      rw [hstep] at h
      simp only at h
      have h1 := lsys_step_ok_stack_len hstep
      have h2 := ih st1 st' h
      simp only [cnt]
      split_ifs at h1 ⊢ <;> omega

/-! ### Bracket discipline -/

theorem lsys_step_ok_of_impl (a : ℝ) (st : TState) (c : Char)
    (hc : c ∈ IMPLEMENTED) (hg : c = ']' → st.stack ≠ []) :
    ∃ st1, lsys_step a st c = .ok st1 := by
  have hc' : c = 'F' ∨ c = '+' ∨ c = '-' ∨ c = '[' ∨ c = ']' ∨ c = '|' := by
    simpa [IMPLEMENTED] using hc
  rcases hc' with rfl | rfl | rfl | rfl | rfl | rfl
  · exact ⟨_, lsys_step_F a st⟩
  · exact ⟨_, lsys_step_plus a st⟩
  · exact ⟨_, lsys_step_minus a st⟩
  · exact ⟨_, lsys_step_push a st⟩
  · rcases hs : st.stack with _ | ⟨⟨dt, xt, yt⟩, rest⟩
    · exact absurd hs (hg rfl)
    · exact ⟨_, lsys_step_pop_cons a st dt xt yt rest hs⟩
  · exact ⟨_, lsys_step_pipe a st⟩

theorem lsys_run_ok_of_prefixes (a : ℝ) : ∀ (s : List Char) (st : TState),
    (∀ c ∈ s, c ∈ IMPLEMENTED) →
    (∀ n : Nat, cnt ']' (s.take n) ≤ cnt '[' (s.take n) + st.stack.length) →
    ∃ st', lsys_run a st s = .ok st' := by
  intro s
  induction s with
  | nil => intro st _ _; exact ⟨st, rfl⟩
  | cons c rest ih =>
    intro st hmem hpre
    have hc : c ∈ IMPLEMENTED := hmem c (List.mem_cons_self c rest)
    have hguard : c = ']' → st.stack ≠ [] := by
      rintro rfl hnil
      have h1 := hpre 1
      simp [cnt, hnil] at h1
    obtain ⟨st1, hstep⟩ := lsys_step_ok_of_impl a st c hc hguard
    have hpre' : ∀ n, cnt ']' (rest.take n) ≤ cnt '[' (rest.take n) + st1.stack.length := by
      intro n
      have h1 := hpre (n + 1)
      have h2 := lsys_step_ok_stack_len hstep
      simp only [List.take_succ_cons, cnt] at h1
      split_ifs at h1 h2 <;> omega
    obtain ⟨st', hrun⟩ := ih st1 (fun d hd => hmem d (List.mem_cons_of_mem c hd)) hpre'
    refine ⟨st', ?_⟩
    simp only [lsys_run]
    rw [hstep]
    simpa using hrun

theorem lsys_run_no_emptyStack (a : ℝ) : ∀ (s : List Char) (st : TState),
    (∀ n : Nat, cnt ']' (s.take n) ≤ cnt '[' (s.take n) + st.stack.length) →
    lsys_run a st s ≠ .error LsysError.emptyStack := by
  intro s
  induction s with
  | nil => intro st _ h; simp [lsys_run] at h
  | cons c rest ih =>
    intro st hpre h
    simp only [lsys_run] at h
    cases hstep : lsys_step a st c with
    | error e =>
      rw [hstep] at h
      simp only at h
      injection h with h
      subst h
      obtain ⟨rfl, hnil⟩ := lsys_step_emptyStack_cases hstep
      have h1 := hpre 1
      simp [cnt, hnil] at h1
    | ok st1 =>
      rw [hstep] at h
      simp only at h
      have h2 := lsys_step_ok_stack_len hstep
      refine ih st1 ?_ h
      intro n
      have h1 := hpre (n + 1)
      simp only [List.take_succ_cons, cnt] at h1
      split_ifs at h1 h2 <;> omega

/-! ### Emitted coordinates and the bounding box -/

theorem sumDx_append (ds es : List DAct) : sumDx (ds ++ es) = sumDx ds + sumDx es := by
  simp [sumDx]

theorem sumDy_append (ds es : List DAct) : sumDy (ds ++ es) = sumDy ds + sumDy es := by
  simp [sumDy]

theorem dacts_to_coords_append (s : ℝ) : ∀ (ds es : List DAct) (x y : ℝ),
    dacts_to_coords s x y (ds ++ es) =
      dacts_to_coords s x y ds ++
        dacts_to_coords s (x + s * sumDx ds) (y + s * sumDy ds) es := by
  intro ds
  induction ds with
  | nil => intro es x y; simp [dacts_to_coords, sumDx, sumDy]
  | cons d tail ih =>
    intro es x y
    simp only [List.cons_append, dacts_to_coords, List.append_eq]
    rw [ih]
    have hx : x + s * dact_dx d + s * sumDx tail = x + s * sumDx (d :: tail) := by
      simp only [sumDx, List.map_cons, List.sum_cons]; ring
    have hy : y + s * dact_dy d + s * sumDy tail = y + s * sumDy (d :: tail) := by
      simp only [sumDy, List.map_cons, List.sum_cons]; ring
    rw [hx, hy]

theorem dacts_to_coords_mem (s : ℝ) : ∀ (ds : List DAct) (x y u v : ℝ) (p : ℝ × ℝ),
    p ∈ dacts_to_coords s x y ds →
    ∃ q ∈ dacts_to_coords 1 u v ds, p = (x + s * (q.1 - u), y + s * (q.2 - v)) := by
  intro ds
  induction ds with
  | nil => intro x y u v p hp; simp [dacts_to_coords] at hp
  | cons d tail ih =>
    intro x y u v p hp
    simp only [dacts_to_coords, List.mem_cons] at hp
    rcases hp with rfl | hp
    · refine ⟨(u + 1 * dact_dx d, v + 1 * dact_dy d), ?_, ?_⟩
      · simp [dacts_to_coords]
      · simp only [Prod.mk.injEq]; constructor <;> ring
    · obtain ⟨q, hq, hpq⟩ :=
        ih (x + s * dact_dx d) (y + s * dact_dy d) (u + 1 * dact_dx d) (v + 1 * dact_dy d) p hp
      refine ⟨q, ?_, ?_⟩
      · simp only [dacts_to_coords, List.mem_cons]
        exact Or.inr hq
      · rw [hpq]
        simp only [Prod.mk.injEq]; constructor <;> ring

theorem coords_inv_step_snoc (st : TState) (d0 : DAct) (nx ny : ℝ)
    (hdx : st.x + dact_dx d0 = nx) (hdy : st.y + dact_dy d0 = ny)
    (hsx : sumDx st.dacts = st.x) (hsy : sumDy st.dacts = st.y)
    (hmem : ∀ q ∈ dacts_to_coords 1 0 0 st.dacts,
      st.x0 ≤ q.1 ∧ q.1 ≤ st.x1 ∧ st.y0 ≤ q.2 ∧ q.2 ≤ st.y1) :
    sumDx (st.dacts ++ [d0]) = nx ∧ sumDy (st.dacts ++ [d0]) = ny ∧
    ∀ q ∈ dacts_to_coords 1 0 0 (st.dacts ++ [d0]),
      min st.x0 nx ≤ q.1 ∧ q.1 ≤ max st.x1 nx ∧
      min st.y0 ny ≤ q.2 ∧ q.2 ≤ max st.y1 ny := by
  have e1 : (0:ℝ) + 1 * sumDx st.dacts + 1 * dact_dx d0 = nx := by
    rw [hsx]; rw [← hdx]; ring
  have e2 : (0:ℝ) + 1 * sumDy st.dacts + 1 * dact_dy d0 = ny := by
    rw [hsy]; rw [← hdy]; ring
  refine ⟨?_, ?_, ?_⟩
  · rw [sumDx_append, hsx]; simp [sumDx]; rw [← hdx]
  · rw [sumDy_append, hsy]; simp [sumDy]; rw [← hdy]
  · intro q hq
    rw [dacts_to_coords_append] at hq
    rcases List.mem_append.mp hq with h1 | h2
    · obtain ⟨b1, b2, b3, b4⟩ := hmem q h1
      exact ⟨le_trans (min_le_left _ _) b1, le_trans b2 (le_max_left _ _),
             le_trans (min_le_left _ _) b3, le_trans b4 (le_max_left _ _)⟩
    · simp only [dacts_to_coords, List.mem_cons, List.not_mem_nil, or_false] at h2
      subst h2
      refine ⟨?_, ?_, ?_, ?_⟩
      · show min st.x0 nx ≤ 0 + 1 * sumDx st.dacts + 1 * dact_dx d0
        rw [e1]; exact min_le_right _ _
      · show 0 + 1 * sumDx st.dacts + 1 * dact_dx d0 ≤ max st.x1 nx
        rw [e1]; exact le_max_right _ _
      · show min st.y0 ny ≤ 0 + 1 * sumDy st.dacts + 1 * dact_dy d0
        rw [e2]; exact min_le_right _ _
      · show 0 + 1 * sumDy st.dacts + 1 * dact_dy d0 ≤ max st.y1 ny
        rw [e2]; exact le_max_right _ _

theorem lsys_step_coords_inv {a : ℝ} {st : TState} {c : Char} {st' : TState}
    (h : lsys_step a st c = .ok st') (hi : CoordsInv st) : CoordsInv st' := by
  obtain ⟨hsx, hsy, hmem⟩ := hi
  have keep : ∀ q ∈ dacts_to_coords 1 0 0 st.dacts,
      min st.x0 st.x ≤ q.1 ∧ q.1 ≤ max st.x1 st.x ∧
      min st.y0 st.y ≤ q.2 ∧ q.2 ≤ max st.y1 st.y := by
    intro q hq
    obtain ⟨b1, b2, b3, b4⟩ := hmem q hq
    exact ⟨le_trans (min_le_left _ _) b1, le_trans b2 (le_max_left _ _),
           le_trans (min_le_left _ _) b3, le_trans b4 (le_max_left _ _)⟩
  rcases lsys_step_ok_cases h with ⟨_, rfl⟩ | ⟨_, rfl⟩ | ⟨_, rfl⟩ | ⟨_, rfl⟩ |
    ⟨_, dt, xt, yt, rest, hs, rfl⟩ | ⟨_, rfl⟩
  · exact coords_inv_step_snoc st (DAct.RlineTo (Real.cos st.d) (Real.sin st.d))
      (st.x + Real.cos st.d) (st.y + Real.sin st.d) rfl rfl hsx hsy hmem
  · exact ⟨hsx, hsy, keep⟩
  · exact ⟨hsx, hsy, keep⟩
  · exact ⟨hsx, hsy, keep⟩
  · exact coords_inv_step_snoc st (DAct.RmoveTo (xt - st.x) (yt - st.y)) xt yt
      (by show st.x + (xt - st.x) = xt; ring) (by show st.y + (yt - st.y) = yt; ring)
      hsx hsy hmem
  · exact ⟨hsx, hsy, keep⟩

theorem lsys_run_coords_inv (a : ℝ) : ∀ (s : List Char) (st st' : TState),
    lsys_run a st s = .ok st' → CoordsInv st → CoordsInv st' := by
  intro s
  induction s with
  | nil =>
    intro st st' h hi
    simp only [lsys_run] at h
    injection h with h; subst h
    exact hi
  | cons c rest ih =>
    intro st st' h hi
    simp only [lsys_run] at h
    cases hstep : lsys_step a st c with
    | error e => rw [hstep] at h; cases h
    | ok st1 =>
      rw [hstep] at h
      simp only at h
      exact ih st1 st' h (lsys_step_coords_inv hstep hi)

theorem init_coords_inv : CoordsInv init_state := by
  refine ⟨?_, ?_, ?_⟩
  · simp [init_state, sumDx, dact_dx]
  · simp [init_state, sumDy, dact_dy]
  · intro q hq
    simp only [init_state, dacts_to_coords, List.mem_cons, List.not_mem_nil, or_false] at hq
    subst hq
    norm_num [init_state, dact_dx, dact_dy]

/-! ### The degeneracy correction and the fit transform -/

theorem bbox_adjust_superset {x0 y0 x1 y1 : ℝ}
    (hx0 : x0 ≤ 0) (hx1 : 0 ≤ x1) (hy0 : y0 ≤ 0) (hy1 : 0 ≤ y1) :
    (bbox_adjust (x0, y0, x1, y1)).1 ≤ x0 ∧ x1 ≤ (bbox_adjust (x0, y0, x1, y1)).2.2.1 ∧
    (bbox_adjust (x0, y0, x1, y1)).2.1 ≤ y0 ∧ y1 ≤ (bbox_adjust (x0, y0, x1, y1)).2.2.2 := by
  have Hx : (if |x1 - x0| < 0.1 then (-0.1 : ℝ) else x0) ≤ x0 ∧
      x1 ≤ (if |x1 - x0| < 0.1 then (0.1 : ℝ) else x1) := by
    split_ifs with h
    · rw [abs_lt] at h
      constructor <;> linarith [h.1, h.2]
    · exact ⟨le_refl _, le_refl _⟩
  have Hy : (if |y1 - y0| < 0.1 then (-0.1 : ℝ) else y0) ≤ y0 ∧
      y1 ≤ (if |y1 - y0| < 0.1 then (0.1 : ℝ) else y1) := by
    split_ifs with h
    · rw [abs_lt] at h
      constructor <;> linarith [h.1, h.2]
    · exact ⟨le_refl _, le_refl _⟩
  exact ⟨Hx.1, Hx.2, Hy.1, Hy.2⟩

theorem bbox_adjust_extent {x0 y0 x1 y1 : ℝ} (hx : x0 ≤ x1) (hy : y0 ≤ y1) :
    (0.1:ℝ) ≤ (bbox_adjust (x0, y0, x1, y1)).2.2.1 - (bbox_adjust (x0, y0, x1, y1)).1 ∧
    (0.1:ℝ) ≤ (bbox_adjust (x0, y0, x1, y1)).2.2.2 - (bbox_adjust (x0, y0, x1, y1)).2.1 := by
  have Hx : (0.1:ℝ) ≤ (if |x1 - x0| < 0.1 then (0.1 : ℝ) else x1) -
      (if |x1 - x0| < 0.1 then (-0.1 : ℝ) else x0) := by
    split_ifs with h
    · norm_num
    · rw [not_lt] at h
      rw [abs_of_nonneg (sub_nonneg.mpr hx)] at h
      linarith
  have Hy : (0.1:ℝ) ≤ (if |y1 - y0| < 0.1 then (0.1 : ℝ) else y1) -
      (if |y1 - y0| < 0.1 then (-0.1 : ℝ) else y0) := by
    split_ifs with h
    · norm_num
    · rw [not_lt] at h
      rw [abs_of_nonneg (sub_nonneg.mpr hy)] at h
      linarith
  exact ⟨Hx, Hy⟩

theorem lsys_dacts_from_rules_ok_elim {l : LSys} {rules : List Char}
    {dacts : List DAct} {bb : BBox}
    (h : lsys_dacts_from_rules l rules = .ok (dacts, bb)) :
    ∃ st, lsys_run (l.angle * Real.pi / 180) init_state rules = .ok st ∧
      dacts = st.dacts ∧ bb = bbox_adjust (st.x0, st.y0, st.x1, st.y1) := by
  unfold lsys_dacts_from_rules at h
  cases hr : lsys_run (l.angle * Real.pi / 180) init_state rules with
  | error e => rw [hr] at h; cases h
  | ok st =>
    rw [hr] at h
    simp only at h
    injection h with h
    injection h with h1 h2
    exact ⟨st, rfl, h1.symm, h2.symm⟩

theorem fit1d {p0 p1 A0 A1 q S : ℝ} (hp : p0 < p1) (hA : (0.1:ℝ) ≤ A1 - A0)
    (hS : 0 < S) (hSA : S * (A1 - A0) ≤ 0.9 * (p1 - p0))
    (hq0 : A0 ≤ q) (hq1 : q ≤ A1) :
    p0 ≤ (p0 + p1) / 2 - (A0 + A1) / 2 * S + S * q ∧
    (p0 + p1) / 2 - (A0 + A1) / 2 * S + S * q ≤ p1 := by
  constructor
  · nlinarith [mul_nonneg hS.le (sub_nonneg.mpr hq0)]
  · nlinarith [mul_nonneg hS.le (sub_nonneg.mpr hq1)]

/-! ### Rule expansion and minimization -/

theorem rules_apply_basic_succ (rules : Rules) : ∀ (n : Nat) (start : List Char),
    rules_apply_basic rules start (n + 1) =
      rules_subst rules (rules_apply_basic rules start n) := by
  intro n
  induction n with
  | zero => intro start; rfl
  | succ m ih =>
    intro start
    show rules_apply_basic rules (rules_subst rules start) (m + 1) = _
    rw [ih (rules_subst rules start)]
    rfl

theorem rules_minimize_idem (s : List Char) :
    rules_minimize (rules_minimize s) = rules_minimize s := by
  induction s with
  | nil => rfl
  | cons c cs ih =>
    simp only [rules_minimize] at ih ⊢
    rw [List.filter_cons]
    split_ifs with h
    · rw [List.filter_cons, if_pos h, ih]
    · exact ih

theorem rules_minimize_mem {s : List Char} {c : Char} (h : c ∈ rules_minimize s) :
    c ∈ ACTIONS := by
  simp only [rules_minimize, List.mem_filter] at h
  exact List.mem_of_elem_eq_true h.2

/-! ### The claims -/

/-- Claim C1 (code bug in the interpreter): `rules_minimize` lets `f`
through, since `f` is in the 7-symbol alphabet `ACTIONS`, but the
interpreter's transition table has no case for `f` and reaches the
unimplemented-action fatal error, contrary to the source's own comment
documenting `f` as "move forward without drawing". -/
theorem C1_minimize_passes_f_interpreter_panics :
    rules_minimize ['f'] = ['f'] ∧
    lsys_dacts_from_rules exA ['f'] = .error (LsysError.unimplemented 'f') :=
  ⟨rfl, rfl⟩

/-- Claim C6: `rules_apply_basic` performs exactly `order` iterations of
the parallel one-step substitution `rules_subst`, which scans left to
right replacing rule keys by their full replacement and passing other
symbols through; order 0 is the identity, and the rules `{A → AB, B → A}`
on start `"A"` give the Fibonacci words at orders 0..4. -/
theorem C6_expand_iterations :
    (∀ (rules : Rules) (start : List Char), rules_apply_basic rules start 0 = start) ∧
    (∀ (rules : Rules) (start : List Char) (n : Nat),
      rules_apply_basic rules start (n + 1) =
        rules_subst rules (rules_apply_basic rules start n)) ∧
    (∀ (rules : Rules) (c : Char) (cs : List Char),
      rules_subst rules (c :: cs) =
        (match rules c with | some s => s | none => [c]) ++ rules_subst rules cs) ∧
    rules_apply_basic fibRules ['A'] 0 = ['A'] ∧
    rules_apply_basic fibRules ['A'] 1 = ['A', 'B'] ∧
    rules_apply_basic fibRules ['A'] 2 = ['A', 'B', 'A'] ∧
    rules_apply_basic fibRules ['A'] 3 = ['A', 'B', 'A', 'A', 'B'] ∧
    rules_apply_basic fibRules ['A'] 4 = ['A', 'B', 'A', 'A', 'B', 'A', 'B', 'A'] := by
  refine ⟨fun rules start => rfl,
    fun rules start n => rules_apply_basic_succ rules n start,
    fun rules c cs => ?_, rfl, rfl, rfl, rfl, rfl⟩
  cases h : rules c <;> simp [rules_subst, h]

/-- Claim C7: `rules_minimize` is idempotent, every character it keeps is
in the 7-symbol alphabet, it deletes `"ABCD"` entirely, and it leaves the
full alphabet string unchanged. -/
theorem C7_minimize_idempotent_alphabet :
    (∀ s : List Char, rules_minimize (rules_minimize s) = rules_minimize s) ∧
    (∀ (s : List Char) (c : Char), c ∈ rules_minimize s → c ∈ ACTIONS) ∧
    rules_minimize ['A', 'B', 'C', 'D'] = [] ∧
    rules_minimize ACTIONS = ACTIONS :=
  ⟨rules_minimize_idem, fun s c h => rules_minimize_mem h, rfl, rfl⟩

/-- Claim C7 witness: the alphabet-exactness part applied at the concrete
string `"Fx"` and character `F`. -/
theorem C7_minimize_idempotent_alphabet_witness :
    ('F' ∈ rules_minimize ['F', 'x']) ∧ 'F' ∈ ACTIONS :=
  ⟨by decide, C7_minimize_idempotent_alphabet.2.1 ['F', 'x'] 'F' (by decide)⟩

/-- Claim C8: the action string handed to the interpreter is exactly:
expand `start` with `rules` to the target order, then expand that result
once with `post_rules`, then minimize, in that order. -/
theorem C8_pipeline_composition (l : LSys) (order : Nat) :
    lsys_apply_rules l order =
      rules_minimize (rules_apply_basic l.post_rules
        (rules_apply_basic l.rules l.start order) 1) ∧
    ∀ pbb : BBox, lsys_draw_coords l order pbb =
      lsys_draw_coords_of_rules l
        (rules_minimize (rules_apply_basic l.post_rules
          (rules_apply_basic l.rules l.start order) 1)) pbb :=
  ⟨rfl, fun pbb => rfl⟩

/-- Claim C9: on a successful interpretation the first emitted command is
the initial relative `RmoveTo(0,0)`, and the command list grows left to
right with the action string: the commands emitted after any prefix of the
actions are an initial segment of the final command list. -/
theorem C9_first_command_is_moveto_origin (l : LSys) (rules : List Char)
    (dacts : List DAct) (bb : BBox)
    (h : lsys_dacts_from_rules l rules = .ok (dacts, bb)) :
    dacts.head? = some (DAct.RmoveTo 0 0) ∧
    ∀ t u, rules = t ++ u →
      ∃ st ds, lsys_run (l.angle * Real.pi / 180) init_state t = .ok st ∧
        dacts = st.dacts ++ ds := by
  obtain ⟨stF, hrun, rfl, hbb⟩ := lsys_dacts_from_rules_ok_elim h
  constructor
  · obtain ⟨ds, hds⟩ := lsys_run_ok_dacts _ rules init_state stF hrun
    rw [hds]
    rfl
  · intro t u htu
    subst htu
    have happ := lsys_run_append (l.angle * Real.pi / 180) t u init_state
    rw [happ] at hrun
    cases ht : lsys_run (l.angle * Real.pi / 180) init_state t with
    | error e => rw [ht] at hrun; simp at hrun
    | ok stT =>
      rw [ht] at hrun
      simp only at hrun
      obtain ⟨ds, hds⟩ := lsys_run_ok_dacts _ u stT stF hrun
      exact ⟨stT, ds, rfl, hds⟩

/-- Claim C9 witness: the interpreter applied to the action string `"["`. -/
theorem C9_first_command_is_moveto_origin_witness :
    ∃ dacts bb, lsys_dacts_from_rules exA ['['] = .ok (dacts, bb) ∧
      dacts.head? = some (DAct.RmoveTo 0 0) ∧
      ∃ st ds, lsys_run (exA.angle * Real.pi / 180) init_state ['['] = .ok st ∧
        dacts = st.dacts ++ ds := by
  refine ⟨_, _, rfl, ?_, ?_⟩
  · exact (C9_first_command_is_moveto_origin exA ['['] _ _ rfl).1
  · exact (C9_first_command_is_moveto_origin exA ['['] _ _ rfl).2 ['['] [] rfl

/-- Claim C10: the bounding box accumulated by a successful run always
contains the origin on both axes, both before and after the degeneracy
correction, since it is seeded at the origin and only ever enlarged. -/
theorem C10_bbox_contains_origin (a : ℝ) (s : List Char) (st : TState)
    (h : lsys_run a init_state s = .ok st) :
    (st.x0 ≤ 0 ∧ 0 ≤ st.x1 ∧ st.y0 ≤ 0 ∧ 0 ≤ st.y1) ∧
    ((bbox_adjust (st.x0, st.y0, st.x1, st.y1)).1 ≤ 0 ∧
      0 ≤ (bbox_adjust (st.x0, st.y0, st.x1, st.y1)).2.2.1 ∧
      (bbox_adjust (st.x0, st.y0, st.x1, st.y1)).2.1 ≤ 0 ∧
      0 ≤ (bbox_adjust (st.x0, st.y0, st.x1, st.y1)).2.2.2) := by
  obtain ⟨m1, m2, m3, m4⟩ := lsys_run_ok_box_mono a s init_state st h
  have hx0 : st.x0 ≤ 0 := by simpa [init_state] using m1
  have hy0 : st.y0 ≤ 0 := by simpa [init_state] using m2
  have hx1 : (0:ℝ) ≤ st.x1 := by simpa [init_state] using m3
  have hy1 : (0:ℝ) ≤ st.y1 := by simpa [init_state] using m4
  obtain ⟨s1, s2, s3, s4⟩ := bbox_adjust_superset hx0 hx1 hy0 hy1
  exact ⟨⟨hx0, hx1, hy0, hy1⟩,
    le_trans s1 hx0, le_trans hx1 s2, le_trans s3 hy0, le_trans hy1 s4⟩

/-- Claim C10 witness: the empty action string. -/
theorem C10_bbox_contains_origin_witness :
    lsys_run (0:ℝ) init_state [] = .ok init_state ∧
    ((init_state.x0 ≤ 0 ∧ 0 ≤ init_state.x1 ∧
      init_state.y0 ≤ 0 ∧ 0 ≤ init_state.y1) ∧
     ((bbox_adjust (init_state.x0, init_state.y0, init_state.x1, init_state.y1)).1 ≤ 0 ∧
       0 ≤ (bbox_adjust (init_state.x0, init_state.y0, init_state.x1, init_state.y1)).2.2.1 ∧
       (bbox_adjust (init_state.x0, init_state.y0, init_state.x1, init_state.y1)).2.1 ≤ 0 ∧
       0 ≤ (bbox_adjust (init_state.x0, init_state.y0, init_state.x1, init_state.y1)).2.2.2)) :=
  ⟨rfl, C10_bbox_contains_origin 0 [] init_state rfl⟩

/-- Claim C5: every position visited by the turtle during a successful
interpretation, after any prefix of the action string, lies within the
closed bounding box returned by the interpreter. -/
theorem C5_bbox_containment (l : LSys) (rules : List Char)
    (dacts : List DAct) (bb : BBox)
    (h : lsys_dacts_from_rules l rules = .ok (dacts, bb)) :
    ∀ t u, rules = t ++ u →
      ∃ st, lsys_run (l.angle * Real.pi / 180) init_state t = .ok st ∧
        bb.1 ≤ st.x ∧ st.x ≤ bb.2.2.1 ∧ bb.2.1 ≤ st.y ∧ st.y ≤ bb.2.2.2 := by
  obtain ⟨stF, hrun, hd, hbb⟩ := lsys_dacts_from_rules_ok_elim h
  intro t u htu
  subst htu
  have happ := lsys_run_append (l.angle * Real.pi / 180) t u init_state
  rw [happ] at hrun
  cases ht : lsys_run (l.angle * Real.pi / 180) init_state t with
  | error e => rw [ht] at hrun; simp at hrun
  | ok stT =>
    rw [ht] at hrun
    simp only at hrun
    have hpos := lsys_run_ok_pos_in_box _ t init_state stT ht (by norm_num [init_state])
    obtain ⟨m1, m2, m3, m4⟩ := lsys_run_ok_box_mono _ u stT stF hrun
    obtain ⟨i1, i2, i3, i4⟩ := lsys_run_ok_box_mono _ t init_state stT ht
    have hx0 : stF.x0 ≤ 0 := le_trans m1 (by simpa [init_state] using i1)
    have hy0 : stF.y0 ≤ 0 := le_trans m2 (by simpa [init_state] using i2)
    have hx1 : (0:ℝ) ≤ stF.x1 := le_trans (by simpa [init_state] using i3) m3
    have hy1 : (0:ℝ) ≤ stF.y1 := le_trans (by simpa [init_state] using i4) m4
    obtain ⟨s1, s2, s3, s4⟩ := bbox_adjust_superset hx0 hx1 hy0 hy1
    subst hbb
    exact ⟨stT, rfl,
      le_trans s1 (le_trans m1 hpos.1),
      le_trans hpos.2.1 (le_trans m3 s2),
      le_trans s3 (le_trans m2 hpos.2.2.1),
      le_trans hpos.2.2.2 (le_trans m4 s4)⟩

/-- Claim C5 witness: the action string `"F"`, whole string as prefix. -/
theorem C5_bbox_containment_witness :
    ∃ dacts bb, lsys_dacts_from_rules exA ['F'] = .ok (dacts, bb) ∧
      ∃ st, lsys_run (exA.angle * Real.pi / 180) init_state ['F'] = .ok st ∧
        bb.1 ≤ st.x ∧ st.x ≤ bb.2.2.1 ∧ bb.2.1 ≤ st.y ∧ st.y ≤ bb.2.2.2 := by
  refine ⟨_, _, rfl, ?_⟩
  exact C5_bbox_containment exA ['F'] _ _ rfl ['F'] [] rfl

/-- Claim C4 counterexample: `"f]"` is a string over the 7-symbol action
alphabet whose `]` has no matching `[`, yet interpretation fails with the
unimplemented-action error at the `f` and never raises the empty-stack
error at the `]`. -/
theorem C4_counterexample_f_before_bracket :
    (∀ c ∈ ['f', ']'], c ∈ ACTIONS) ∧
    cnt '[' ['f', ']'] = 0 ∧
    lsys_run (0:ℝ) init_state ['f', ']'] = .error (LsysError.unimplemented 'f') ∧
    LsysError.unimplemented 'f' ≠ LsysError.emptyStack :=
  ⟨by decide, by decide, rfl, by decide⟩

/-- Claim C4 (amended to strings over the six implemented actions):
a bracket-balanced string never raises the empty-stack error (this part
for arbitrary characters); a balanced string of implemented actions runs
to completion with an empty stack; and a string of implemented actions
whose first unmatched `]` follows a balanced prefix `t` fails with the
empty-stack error exactly at that `]`. -/
theorem C4_bracket_discipline :
    (∀ (a : ℝ) (s : List Char),
      (∀ n : Nat, cnt ']' (s.take n) ≤ cnt '[' (s.take n)) →
      lsys_run a init_state s ≠ .error LsysError.emptyStack) ∧
    (∀ (a : ℝ) (s : List Char),
      (∀ c ∈ s, c ∈ IMPLEMENTED) →
      (∀ n : Nat, cnt ']' (s.take n) ≤ cnt '[' (s.take n)) →
      cnt '[' s = cnt ']' s →
      ∃ st, lsys_run a init_state s = .ok st ∧ st.stack = []) ∧
    (∀ (a : ℝ) (t u : List Char),
      (∀ c ∈ t, c ∈ IMPLEMENTED) →
      (∀ n : Nat, cnt ']' (t.take n) ≤ cnt '[' (t.take n)) →
      cnt '[' t = cnt ']' t →
      ∃ st, lsys_run a init_state t = .ok st ∧ st.stack = [] ∧
        lsys_run a init_state (t ++ ']' :: u) = .error LsysError.emptyStack) := by
  refine ⟨?_, ?_, ?_⟩
  · intro a s hbal
    apply lsys_run_no_emptyStack
    intro n
    have h := hbal n
    simpa [init_state] using h
  · intro a s hmem hbal heq
    obtain ⟨st, hrun⟩ := lsys_run_ok_of_prefixes a s init_state hmem
      (by intro n; simpa [init_state] using hbal n)
    have hlen := lsys_run_ok_stack_len a s init_state st hrun
    refine ⟨st, hrun, ?_⟩
    apply List.length_eq_zero.mp
    simp [init_state] at hlen
    omega
  · intro a t u hmem hbal heq
    obtain ⟨st, hrunT⟩ := lsys_run_ok_of_prefixes a t init_state hmem
      (by intro n; simpa [init_state] using hbal n)
    have hlen := lsys_run_ok_stack_len a t init_state st hrunT
    have hnil : st.stack = [] := by
      apply List.length_eq_zero.mp
      simp [init_state] at hlen
      omega
    refine ⟨st, hrunT, hnil, ?_⟩
    have happ := lsys_run_append a t (']' :: u) init_state
    rw [happ, hrunT]
    show lsys_run a st (']' :: u) = .error LsysError.emptyStack
    simp only [lsys_run]
    rw [lsys_step_pop_nil a st hnil]

/-- Claim C4 witness: the balanced implemented-action string `"[]"`. -/
theorem C4_bracket_discipline_witness :
    (∀ c ∈ ['[', ']'], c ∈ IMPLEMENTED) ∧
    (∀ n : Nat, cnt ']' (List.take n ['[', ']']) ≤ cnt '[' (List.take n ['[', ']'])) ∧
    cnt '[' ['[', ']'] = cnt ']' ['[', ']'] ∧
    (∃ st, lsys_run (0:ℝ) init_state ['[', ']'] = .ok st ∧ st.stack = []) := by
  have hbal : ∀ n : Nat,
      cnt ']' (List.take n ['[', ']']) ≤ cnt '[' (List.take n ['[', ']']) := by
    intro n
    rcases n with _ | _ | n <;> simp [cnt]
  exact ⟨by decide, hbal, by decide,
    C4_bracket_discipline.2.1 0 ['[', ']'] (by decide) hbal (by decide)⟩

/-- Claim C2: with the usage fraction constant `0.9 ≤ 1`, for every
grammar, order and non-degenerate target rectangle, every absolute
coordinate emitted into the path (scale `min sx sy`, center-to-center
offset) lies within the target rectangle — here exactly, since the
embedding works over the reals. -/
theorem C2_fit_transform_containment (l : LSys) (order : Nat)
    (px0 py0 px1 py1 : ℝ) (hx : px0 < px1) (hy : py0 < py1)
    (coords : List (ℝ × ℝ))
    (h : lsys_draw_coords l order (px0, py0, px1, py1) = .ok coords) :
    ∀ p ∈ coords, px0 ≤ p.1 ∧ p.1 ≤ px1 ∧ py0 ≤ p.2 ∧ p.2 ≤ py1 := by
  unfold lsys_draw_coords lsys_draw_coords_of_rules at h
  cases hd : lsys_dacts_from_rules l (lsys_apply_rules l order) with
  | error e => rw [hd] at h; simp at h
  | ok pr =>
    obtain ⟨dacts, abb⟩ := pr
    rw [hd] at h
    simp only at h
    injection h with h
    subst h
    obtain ⟨stF, hrun, hdacts, hbbeq⟩ := lsys_dacts_from_rules_ok_elim hd
    subst hdacts
    obtain ⟨m1, m2, m3, m4⟩ :=
      lsys_run_ok_box_mono (l.angle * Real.pi / 180) (lsys_apply_rules l order)
        init_state stF hrun
    have hx0 : stF.x0 ≤ 0 := by simpa [init_state] using m1
    have hy0 : stF.y0 ≤ 0 := by simpa [init_state] using m2
    have hx1 : (0:ℝ) ≤ stF.x1 := by simpa [init_state] using m3
    have hy1 : (0:ℝ) ≤ stF.y1 := by simpa [init_state] using m4
    have hsup : abb.1 ≤ stF.x0 ∧ stF.x1 ≤ abb.2.2.1 ∧
        abb.2.1 ≤ stF.y0 ∧ stF.y1 ≤ abb.2.2.2 := by
      rw [hbbeq]; exact bbox_adjust_superset hx0 hx1 hy0 hy1
    have hext : (0.1:ℝ) ≤ abb.2.2.1 - abb.1 ∧ (0.1:ℝ) ≤ abb.2.2.2 - abb.2.1 := by
      rw [hbbeq]; exact bbox_adjust_extent (le_trans hx0 hx1) (le_trans hy0 hy1)
    have hax : (0:ℝ) < abb.2.2.1 - abb.1 := lt_of_lt_of_le (by norm_num) hext.1
    have hay : (0:ℝ) < abb.2.2.2 - abb.2.1 := lt_of_lt_of_le (by norm_num) hext.2
    have hbuf : (0:ℝ) < BOX_USAGE_FRACTION := by norm_num [BOX_USAGE_FRACTION]
    set sx := (px1 - px0) * BOX_USAGE_FRACTION / (abb.2.2.1 - abb.1) with hsx_def
    set sy := (py1 - py0) * BOX_USAGE_FRACTION / (abb.2.2.2 - abb.2.1) with hsy_def
    set S := min sx sy with hS_def
    have hsx_pos : 0 < sx := by
      rw [hsx_def]
      exact div_pos (mul_pos (sub_pos.mpr hx) hbuf) hax
    have hsy_pos : 0 < sy := by
      rw [hsy_def]
      exact div_pos (mul_pos (sub_pos.mpr hy) hbuf) hay
    have hS_pos : 0 < S := lt_min hsx_pos hsy_pos
    have hSA_x : S * (abb.2.2.1 - abb.1) ≤ 0.9 * (px1 - px0) := by
      have h1 : S ≤ sx := min_le_left _ _
      have h2 : S * (abb.2.2.1 - abb.1) ≤ sx * (abb.2.2.1 - abb.1) :=
        mul_le_mul_of_nonneg_right h1 (le_of_lt hax)
      rw [hsx_def, div_mul_cancel₀ _ (ne_of_gt hax)] at h2
      calc S * (abb.2.2.1 - abb.1) ≤ (px1 - px0) * BOX_USAGE_FRACTION := h2
        _ = 0.9 * (px1 - px0) := by simp only [BOX_USAGE_FRACTION]; ring
    have hSA_y : S * (abb.2.2.2 - abb.2.1) ≤ 0.9 * (py1 - py0) := by
      have h1 : S ≤ sy := min_le_right _ _
      have h2 : S * (abb.2.2.2 - abb.2.1) ≤ sy * (abb.2.2.2 - abb.2.1) :=
        mul_le_mul_of_nonneg_right h1 (le_of_lt hay)
      rw [hsy_def, div_mul_cancel₀ _ (ne_of_gt hay)] at h2
      calc S * (abb.2.2.2 - abb.2.1) ≤ (py1 - py0) * BOX_USAGE_FRACTION := h2
        _ = 0.9 * (py1 - py0) := by simp only [BOX_USAGE_FRACTION]; ring
    obtain ⟨-, -, hmem⟩ :=
      lsys_run_coords_inv (l.angle * Real.pi / 180) (lsys_apply_rules l order)
        init_state stF hrun init_coords_inv
    intro p hp
    obtain ⟨q, hq, hpeq⟩ := dacts_to_coords_mem S stF.dacts _ _ 0 0 p hp
    obtain ⟨b1, b2, b3, b4⟩ := hmem q hq
    have hfitx := fit1d hx hext.1 hS_pos hSA_x
      (le_trans hsup.1 b1) (le_trans b2 hsup.2.1)
    have hfity := fit1d hy hext.2 hS_pos hSA_y
      (le_trans hsup.2.2.1 b3) (le_trans b4 hsup.2.2.2)
    rw [hpeq]
    dsimp only
    refine ⟨by linarith [hfitx.1], by linarith [hfitx.2],
      by linarith [hfity.1], by linarith [hfity.2]⟩

/-- Claim C2 witness: the trivial grammar over the unit target square. -/
theorem C2_fit_transform_containment_witness :
    ((0:ℝ) < 1) ∧
    ∃ cs, lsys_draw_coords exA 0 ((0:ℝ), (0:ℝ), (1:ℝ), (1:ℝ)) = .ok cs ∧
      ∀ p ∈ cs, (0:ℝ) ≤ p.1 ∧ p.1 ≤ 1 ∧ (0:ℝ) ≤ p.2 ∧ p.2 ≤ 1 := by
  have h := C2_fit_transform_containment exA 0 0 0 1 1 (by norm_num) (by norm_num) _ rfl
  exact ⟨by norm_num, _, rfl, h⟩

/-- Claim C3 counterexample: the claim "an axis whose extent is below the
threshold is widened symmetrically about that box's center" is false.  For
the grammar with a 1-degree angle and action string `"+F"`, the raw y-box
is the interval from `-sin(pi/180)` to `0`, whose extent is below `0.1`
but whose center is not `0`; the code replaces it by the fixed interval
from `-0.1` to `0.1`, whose center is `0`, so the sum of the corrected
bounds differs from the sum of the raw bounds. -/
theorem C3_counterexample_center_not_preserved :
    ¬ (∀ (l : LSys) (rules : List Char) (st : TState) (dacts : List DAct) (bb : BBox),
        lsys_run (l.angle * Real.pi / 180) init_state rules = .ok st →
        lsys_dacts_from_rules l rules = .ok (dacts, bb) →
        |st.y1 - st.y0| < 0.1 →
        bb.2.1 + bb.2.2.2 = st.y0 + st.y1) := by
  intro hP
  have hπ := Real.pi_pos
  have hθpos : (0:ℝ) < Real.pi / 180 := by positivity
  have hθlt : Real.pi / 180 < 0.1 := by
    have h315 : Real.pi < 3.15 := Real.pi_lt_d2
    linarith
  have hs0 : 0 < Real.sin (Real.pi / 180) :=
    Real.sin_pos_of_pos_of_lt_pi hθpos (by linarith)
  have hs1 : Real.sin (Real.pi / 180) < 0.1 := lt_trans (Real.sin_lt hθpos) hθlt
  have hstep1 := lsys_step_plus (exDeg1.angle * Real.pi / 180) init_state
  set S1 := bbox_update
    { init_state with d := init_state.d + (exDeg1.angle * Real.pi / 180) * ROTATION }
    with hS1
  have hstep2 := lsys_step_F (exDeg1.angle * Real.pi / 180) S1
  set S2 := bbox_update
    { S1 with
        x := S1.x + Real.cos S1.d, y := S1.y + Real.sin S1.d,
        dacts := S1.dacts ++ [DAct.RlineTo (Real.cos S1.d) (Real.sin S1.d)] }
    with hS2
  have hrun : lsys_run (exDeg1.angle * Real.pi / 180) init_state ['+', 'F'] = .ok S2 := by
    simp only [lsys_run]
    rw [hstep1]
    simp only [lsys_run]
    rw [hstep2]
  have hres : lsys_dacts_from_rules exDeg1 ['+', 'F'] =
      .ok (S2.dacts, bbox_adjust (S2.x0, S2.y0, S2.x1, S2.y1)) := by
    unfold lsys_dacts_from_rules
    rw [hrun]
  have hd1 : S1.d = -(Real.pi / 180) := by
    rw [hS1]
    show (0:ℝ) + 1 * Real.pi / 180 * (-1) = -(Real.pi / 180)
    ring
  have hx1v : S1.x = 0 := by rw [hS1]; rfl
  have hy1v : S1.y = 0 := by rw [hS1]; rfl
  have hy01 : S1.y0 = 0 := by rw [hS1]; show min (0:ℝ) 0 = 0; exact min_self 0
  have hy11 : S1.y1 = 0 := by rw [hS1]; show max (0:ℝ) 0 = 0; exact max_self 0
  have hy02 : S2.y0 = -(Real.sin (Real.pi / 180)) := by
    rw [hS2]
    show min S1.y0 (S1.y + Real.sin S1.d) = _
    rw [hy01, hy1v, hd1, Real.sin_neg, zero_add]
    exact min_eq_right (by linarith)
  have hy12 : S2.y1 = 0 := by
    rw [hS2]
    show max S1.y1 (S1.y + Real.sin S1.d) = _
    rw [hy11, hy1v, hd1, Real.sin_neg, zero_add]
    exact max_eq_left (by linarith)
  have hcond : |S2.y1 - S2.y0| < 0.1 := by
    rw [hy02, hy12]
    rw [show (0:ℝ) - -(Real.sin (Real.pi / 180)) = Real.sin (Real.pi / 180) by ring]
    rw [abs_of_pos hs0]
    exact hs1
  have happly := hP exDeg1 ['+', 'F'] S2 S2.dacts
    (bbox_adjust (S2.x0, S2.y0, S2.x1, S2.y1)) hrun hres hcond
  have hL : (bbox_adjust (S2.x0, S2.y0, S2.x1, S2.y1)).2.1 = -0.1 := by
    show (if |S2.y1 - S2.y0| < 0.1 then (-0.1:ℝ) else S2.y0) = -0.1
    rw [if_pos hcond]
  have hR : (bbox_adjust (S2.x0, S2.y0, S2.x1, S2.y1)).2.2.2 = (0.1:ℝ) := by
    show (if |S2.y1 - S2.y0| < 0.1 then (0.1:ℝ) else S2.y1) = 0.1
    rw [if_pos hcond]
  rw [hL, hR, hy02, hy12] at happly
  linarith

/-- Claim C3 (amended): the degeneracy correction replaces an axis whose
extent is below `0.1` by the fixed interval from `-0.1` to `0.1`
(symmetric about the origin, span `0.2`, regardless of the box's center),
and leaves an axis whose extent is at or above `0.1` unchanged; each axis
is treated independently. -/
theorem C3_degeneracy_fixed_interval (l : LSys) (rules : List Char) (st : TState)
    (dacts : List DAct) (bb : BBox)
    (hrun : lsys_run (l.angle * Real.pi / 180) init_state rules = .ok st)
    (hres : lsys_dacts_from_rules l rules = .ok (dacts, bb)) :
    ((|st.x1 - st.x0| < 0.1 → bb.1 = -0.1 ∧ bb.2.2.1 = 0.1) ∧
     (¬ |st.x1 - st.x0| < 0.1 → bb.1 = st.x0 ∧ bb.2.2.1 = st.x1)) ∧
    ((|st.y1 - st.y0| < 0.1 → bb.2.1 = -0.1 ∧ bb.2.2.2 = 0.1) ∧
     (¬ |st.y1 - st.y0| < 0.1 → bb.2.1 = st.y0 ∧ bb.2.2.2 = st.y1)) := by
  obtain ⟨st', hrun', hd, hbb⟩ := lsys_dacts_from_rules_ok_elim hres
  rw [hrun] at hrun'
  injection hrun' with he
  subst he
  subst hbb
  simp only [bbox_adjust]
  refine ⟨⟨fun hc => ⟨?_, ?_⟩, fun hc => ⟨?_, ?_⟩⟩,
    ⟨fun hc => ⟨?_, ?_⟩, fun hc => ⟨?_, ?_⟩⟩⟩
  · rw [if_pos hc]
  · rw [if_pos hc]
  · rw [if_neg hc]
  · rw [if_neg hc]
  · rw [if_pos hc]
  · rw [if_pos hc]
  · rw [if_neg hc]
  · rw [if_neg hc]

/-- Claim C3 witness: the empty action string, whose raw box is the
degenerate origin box on both axes. -/
theorem C3_degeneracy_fixed_interval_witness :
    lsys_run (exA.angle * Real.pi / 180) init_state [] = .ok init_state ∧
    lsys_dacts_from_rules exA [] =
      .ok (init_state.dacts,
        bbox_adjust (init_state.x0, init_state.y0, init_state.x1, init_state.y1)) ∧
    (((|init_state.x1 - init_state.x0| < 0.1 →
        (bbox_adjust (init_state.x0, init_state.y0, init_state.x1, init_state.y1)).1 = -0.1 ∧
        (bbox_adjust (init_state.x0, init_state.y0, init_state.x1, init_state.y1)).2.2.1 = 0.1) ∧
      (¬ |init_state.x1 - init_state.x0| < 0.1 →
        (bbox_adjust (init_state.x0, init_state.y0, init_state.x1, init_state.y1)).1 =
          init_state.x0 ∧
        (bbox_adjust (init_state.x0, init_state.y0, init_state.x1, init_state.y1)).2.2.1 =
          init_state.x1)) ∧
     ((|init_state.y1 - init_state.y0| < 0.1 →
        (bbox_adjust (init_state.x0, init_state.y0, init_state.x1, init_state.y1)).2.1 = -0.1 ∧
        (bbox_adjust (init_state.x0, init_state.y0, init_state.x1, init_state.y1)).2.2.2 = 0.1) ∧
      (¬ |init_state.y1 - init_state.y0| < 0.1 →
        (bbox_adjust (init_state.x0, init_state.y0, init_state.x1, init_state.y1)).2.1 =
          init_state.y0 ∧
        (bbox_adjust (init_state.x0, init_state.y0, init_state.x1, init_state.y1)).2.2.2 =
          init_state.y1))) :=
  ⟨rfl, rfl, C3_degeneracy_fixed_interval exA [] init_state init_state.dacts _ rfl rfl⟩

end RustSvg
